/-
Verification of the Ticket_Graph retrieval engine.

Shallow embedding of the repository's Python sources:
  backend/retrieval/vector_store.py  (class VectorStore)
  backend/graph/build_graph.py       (connect_similar_tickets)
  backend/graph/community.py         (CommunityDetector.analyze_community_text)
  backend/llm/answer.py              (retrieve_graph_context)

Real-valued numpy computations are embedded over `ℝ` (with `Real.sqrt` for
`np.linalg.norm`); string and list manipulations are embedded as computable
Lean functions.  Stateful methods are embedded as explicit state passing: a
method that can raise returns the state as it stands when the call finishes
or raises, together with an optional error, so that partial mutation before
an exception is observable.
-/
import Mathlib

namespace TicketGraph

/-! ### Numeric primitives (numpy) -/

/-- `np.dot` on 1-D arrays: sum of elementwise products. -/
def dot (a b : List ℝ) : ℝ := (List.zipWith (· * ·) a b).sum

/-- Sum of squares of a vector (the square of its L2 norm). -/
def sumSq (a : List ℝ) : ℝ := dot a a

/-- `np.linalg.norm`: the L2 norm. -/
noncomputable def l2norm (a : List ℝ) : ℝ := Real.sqrt (sumSq a)

/-- `atol=1e-5` as passed to `np.allclose` / `np.isclose` in vector_store.py. -/
noncomputable def npAtol : ℝ := 1 / 100000

/-- numpy's default `rtol=1e-5`, which `vector_store.py` does not override. -/
noncomputable def npRtol : ℝ := 1 / 100000

/-- `np.isclose(x, 1.0, atol=1e-5)`: `|x - 1| <= atol + rtol*|1.0|`
(numpy keeps its default `rtol=1e-5`, so the effective tolerance is `2e-5`). -/
def npCloseToOne (x : ℝ) : Prop := |x - 1| ≤ npAtol + npRtol * |(1 : ℝ)|

noncomputable instance : DecidablePred npCloseToOne := fun _ => by
  unfold npCloseToOne; infer_instance

/-- Divide every component by the row's L2 norm (`embeddings / norms`). -/
noncomputable def normalizeRow (r : List ℝ) : List ℝ := r.map (· / l2norm r)

/-- Cosine similarity as computed in `connect_similar_tickets`:
`np.dot(a, b) / (np.linalg.norm(a) * np.linalg.norm(b))`. -/
noncomputable def cosineSim (a b : List ℝ) : ℝ := dot a b / (l2norm a * l2norm b)

/-! ### Stable descending sort

Python's `list.sort(key=..., reverse=True)` is a stable sort, so ties keep
their original relative order; FAISS exact search likewise ranks by score
descending with earlier offsets first on ties.  Both are modelled by sorting
the index-tagged list with a total order: key descending, position ascending. -/

/-- Order on position-tagged elements: larger key first, ties by position. -/
def keyRel {α β : Type*} [LinearOrder β] (key : α → β) : ℕ × α → ℕ × α → Prop :=
  fun p q => key q.2 < key p.2 ∨ (key p.2 = key q.2 ∧ p.1 ≤ q.1)

instance {α β : Type*} [LinearOrder β] (key : α → β) : DecidableRel (keyRel key) :=
  fun _ _ => by unfold keyRel; infer_instance

instance keyRel_isTotal {α β : Type*} [LinearOrder β] (key : α → β) :
    IsTotal (ℕ × α) (keyRel key) := by
  constructor
  intro p q
  rcases lt_trichotomy (key p.2) (key q.2) with h | h | h
  · exact Or.inr (Or.inl h)
  · rcases Nat.le_total p.1 q.1 with h' | h'
    · exact Or.inl (Or.inr ⟨h, h'⟩)
    · exact Or.inr (Or.inr ⟨h.symm, h'⟩)
  · exact Or.inl (Or.inl h)

instance keyRel_isTrans {α β : Type*} [LinearOrder β] (key : α → β) :
    IsTrans (ℕ × α) (keyRel key) := by
  constructor
  rintro p q r (hpq | ⟨hpq, hpq'⟩) (hqr | ⟨hqr, hqr'⟩)
  · exact Or.inl (hqr.trans hpq)
  · exact Or.inl (hqr ▸ hpq)
  · exact Or.inl (lt_of_lt_of_eq hqr hpq.symm)
  · exact Or.inr ⟨hpq.trans hqr, hpq'.trans hqr'⟩

/-- Stable sort by `key` descending (position-ascending on ties). -/
def stableSortDesc {α β : Type*} [LinearOrder β] (key : α → β) (l : List α) : List α :=
  (l.enum.insertionSort (keyRel key)).map Prod.snd

theorem stableSortDesc_perm {α β : Type*} [LinearOrder β] (key : α → β) (l : List α) :
    List.Perm (stableSortDesc key l) l := by
  have h1 : List.Perm ((l.enum.insertionSort (keyRel key)).map Prod.snd)
      (l.enum.map Prod.snd) := (List.perm_insertionSort _ _).map _
  simpa [stableSortDesc, List.enum_map_snd] using h1

theorem stableSortDesc_length {α β : Type*} [LinearOrder β] (key : α → β) (l : List α) :
    (stableSortDesc key l).length = l.length :=
  (stableSortDesc_perm key l).length_eq

theorem stableSortDesc_mem {α β : Type*} [LinearOrder β] (key : α → β) (l : List α) (x : α) :
    x ∈ stableSortDesc key l ↔ x ∈ l :=
  (stableSortDesc_perm key l).mem_iff

theorem stableSortDesc_pairwise {α β : Type*} [LinearOrder β] (key : α → β) (l : List α) :
    (stableSortDesc key l).Pairwise (fun a b => key b ≤ key a) := by
  have hs : (l.enum.insertionSort (keyRel key)).Sorted (keyRel key) :=
    List.sorted_insertionSort _ _
  have hw : (l.enum.insertionSort (keyRel key)).Pairwise
      (fun p q : ℕ × α => key q.2 ≤ key p.2) := by
    refine hs.imp ?_
    rintro p q (h | ⟨h, -⟩)
    · exact le_of_lt h
    · exact le_of_eq h.symm
  exact List.pairwise_map.mpr hw

/-- Anything of `l` missing from the first `k` entries of the descending sort
scores no higher than each of those entries. -/
theorem stableSortDesc_take_top {α β : Type*} [LinearOrder β] (key : α → β)
    (l : List α) (k : ℕ) (x : α) (hx : x ∈ l) :
    x ∈ (stableSortDesc key l).take k ∨
      ∀ y ∈ (stableSortDesc key l).take k, key x ≤ key y := by
  have hmem : x ∈ stableSortDesc key l := (stableSortDesc_mem key l x).mpr hx
  have hsplit := List.take_append_drop k (stableSortDesc key l)
  have hpw := stableSortDesc_pairwise key l
  rw [← hsplit] at hmem hpw
  rcases List.mem_append.mp hmem with h | h
  · exact Or.inl h
  · right
    intro y hy
    exact (List.pairwise_append.mp hpw).2.2 y hy x h

theorem stableSortDesc_take_pairwise {α β : Type*} [LinearOrder β] (key : α → β)
    (l : List α) (k : ℕ) :
    ((stableSortDesc key l).take k).Pairwise (fun a b => key b ≤ key a) :=
  (stableSortDesc_pairwise key l).sublist (List.take_sublist _ _)

/-! ### VectorStore (backend/retrieval/vector_store.py)

State of a `VectorStore` instance.  `indexVectors` is the content of the
FAISS `IndexFlatIP` (so `len(self) = index.ntotal = indexVectors.length`);
`vectors`, `texts` and `metadatas` are the parallel Python lists.  The
`index_path` string plays no role in the in-memory semantics and is omitted.
A metadata dict is modelled as an insertion-ordered association list. -/

/-- A Python metadata dict: insertion-ordered key/value pairs. -/
abbrev Metadata := List (String × String)

structure Store where
  dimension : ℕ
  indexVectors : List (List ℝ)
  texts : List String
  vectors : List (List ℝ)
  metadatas : List Metadata

/-- `VectorStore.__init__` / `_init_index`: an empty index of the given
dimension with empty parallel lists. -/
def emptyStore (dimension : ℕ) : Store :=
  ⟨dimension, [], [], [], []⟩

/-- `VectorStore.clear`: calls `_init_index`, keeping `self.dimension`. -/
def clearVS (s : Store) : Store := emptyStore s.dimension

/-- A numpy 2-D float array of shape `[rows.length, width]`
(every row has length `width`). -/
structure Mat where
  rows : List (List ℝ)
  width : ℕ

/-- `metadata['text'] = texts[i] if 'text' not in metadata`: Python dict
assignment appends a fresh key at the end of the insertion order. -/
def ensureText (t : String) (m : Metadata) : Metadata :=
  if (m.lookup "text").isSome then m else m ++ [("text", t)]

/-- `VectorStore.add(texts, embeddings, metadatas)`.

Returns the state as it stands when the call returns or raises, together
with the raised message (`ValueError`) if any.  Notable source details kept
faithfully:
* the empty-`texts` early return happens before any validation;
* `np.allclose(norms, 1.0, atol=1e-5)` keeps numpy's default `rtol=1e-5`;
  if any row fails it, every row is divided by its norm;
* the metadatas length check happens only after the FAISS index, `texts`
  and `vectors` have already been extended;
* `metadatas = [{}] * len(texts)` aliases one shared dict, so the loop that
  inserts the canonical text field writes `texts[0]` into that single dict
  and every entry of the stored list is `{'text': texts[0]}`. -/
noncomputable def addVS (s : Store) (texts : List String) (emb : Mat)
    (metadatas : Option (List Metadata)) : Store × Option String :=
  if texts.length = 0 then (s, none)
  else if emb.rows.length ≠ texts.length then
    (s, some "Number of embeddings doesn't match number of texts")
  else if emb.width ≠ s.dimension then
    (s, some "Embedding dimension doesn't match index dimension")
  else
    let rows := if ∀ r ∈ emb.rows, npCloseToOne (l2norm r)
      then emb.rows else emb.rows.map normalizeRow
    let s1 : Store :=
      { s with indexVectors := s.indexVectors ++ rows
               texts := s.texts ++ texts
               vectors := s.vectors ++ rows }
    match metadatas with
    | none =>
        let shared := ensureText (texts.headD "") []
        ({ s1 with metadatas := s1.metadatas ++ List.replicate texts.length shared },
         none)
    | some ms =>
        if ms.length ≠ texts.length then
          (s1, some "Number of metadatas doesn't match number of texts")
        else
          ({ s1 with metadatas :=
              s1.metadatas ++ (ms.zip texts).map (fun p => ensureText p.2 p.1) },
           none)

/-- One entry of the list returned by `VectorStore.search`. -/
structure SearchHit where
  text : String
  metadata : Metadata
  score : ℝ
  index : ℕ

/-- Result row built from the ranked pair `(offset, score)`. -/
def mkHit (s : Store) (p : ℕ × ℝ) : SearchHit :=
  ⟨s.texts.getD p.1 "", s.metadatas.getD p.1 [], p.2, p.1⟩

/-- The `min_score` filter of the result loop: an entry is kept unless
`min_score is not None and score < min_score`. -/
noncomputable def keepHit (minScore : Option ℝ) (p : ℕ × ℝ) : Bool :=
  match minScore with
  | none => true
  | some m => decide (¬ p.2 < m)

/-- `VectorStore.search(query_embedding, k, min_score)`.

The query is renormalized unless `np.isclose(norm, 1.0, atol=1e-5)` (again
with numpy's default `rtol=1e-5`); `k` is clamped to the index size; FAISS
`IndexFlatIP.search` is exact inner-product search, modelled as ranking all
stored vectors by score descending (stable, so equal scores keep offset
order).  With `k` clamped, FAISS never returns `-1` slots, so the loop's
`idx == -1` skip drops nothing. -/
noncomputable def searchVS (s : Store) (q : List ℝ) (k : ℕ)
    (minScore : Option ℝ) : List SearchHit :=
  if s.indexVectors.length = 0 then []
  else
    let qn := if npCloseToOne (l2norm q) then q else normalizeRow q
    let scored := s.indexVectors.enum.map (fun p => (p.1, dot qn p.2))
    let ranked := (stableSortDesc Prod.snd scored).take (min k s.indexVectors.length)
    (ranked.filter (keepHit minScore)).map (mkHit s)

/-- The pair of companion files written by `VectorStore.persist`:
`{path}.faiss` holds the FAISS index, `{path}.meta.pkl` the pickled
metadata/texts/vectors/dimension. -/
structure Snapshot where
  faissIndex : List (List ℝ)
  metadatas : List Metadata
  texts : List String
  vectors : List (List ℝ)
  dimension : ℕ

/-- `VectorStore.persist`. -/
def persistVS (s : Store) : Snapshot :=
  ⟨s.indexVectors, s.metadatas, s.texts, s.vectors, s.dimension⟩

/-- `VectorStore.load`: with no snapshot on disk it returns `False` and
leaves the state alone; otherwise it replaces the index and all parallel
lists with the snapshot's contents and returns `True`. -/
def loadVS (s : Store) (snap : Option Snapshot) : Store × Bool :=
  match snap with
  | none => (s, false)
  | some sn =>
      (⟨sn.dimension, sn.faissIndex, sn.texts, sn.vectors, sn.metadatas⟩, true)

/-! ### Similarity graph builder (backend/graph/build_graph.py) -/

/-- The inner loop of `connect_similar_tickets` for source position `i` with
embedding `emb`: cosine similarity against every other position, keeping
pairs `(other_id, score)` with `score >= threshold`, in iteration order. -/
noncomputable def qualScores (entries : List (String × List ℝ)) (t : ℝ)
    (i : ℕ) (emb : List ℝ) : List (String × ℝ) :=
  entries.enum.filterMap (fun p =>
    if p.1 = i then none
    else if t ≤ cosineSim emb p.2.2 then some (p.2.1, cosineSim emb p.2.2)
    else none)

/-- `connect_similar_tickets(graph, ticket_embeddings, threshold, top_k)`.

`ticket_embeddings` is a Python dict, modelled as an association list with
distinct keys in insertion order (`ticket_ids = list(...keys())`).  For each
source the qualifying neighbors are sorted by score descending (Python's
stable `list.sort(reverse=True)`), the first `top_k` are kept, and one
directed edge `(ticket_id, other_id, score)` is appended per kept pair. -/
noncomputable def connectSimilarTickets (entries : List (String × List ℝ))
    (t : ℝ) (topK : ℕ) : List (String × String × ℝ) :=
  entries.enum.flatMap (fun p =>
    ((stableSortDesc Prod.snd (qualScores entries t p.1 p.2.2)).take topK).map
      (fun q => (p.2.1, q.1, q.2)))

/-- The directed edges emitted with source `src`. -/
noncomputable def edgesFrom (out : List (String × String × ℝ)) (src : String) :
    List (String × String × ℝ) :=
  out.filter (fun e => decide (e.1 = src))

/-! ### Community text analysis (backend/graph/community.py) -/

/-- A character matched by the regex class `[a-z]`. -/
def isLowerAZ (c : Char) : Bool := 'a' ≤ c && c ≤ 'z'

/-- A regex word character `\w = [A-Za-z0-9_]`, which blocks the `\b`
boundaries around a candidate token. -/
def isWordChar (c : Char) : Bool :=
  ('a' ≤ c && c ≤ 'z') || ('A' ≤ c && c ≤ 'Z') || ('0' ≤ c && c ≤ '9') || c == '_'

/-- Scanner state for `re.findall(r'\b[a-z]{3,}\b', text)`: emitted tokens,
the current run of `[a-z]` characters, and whether the character just before
the current run was a word character (which kills the leading `\b`). -/
structure TokState where
  acc : List String
  cur : List Char
  blocked : Bool

def tokStep (st : TokState) (c : Char) : TokState :=
  if isLowerAZ c then ⟨st.acc, st.cur ++ [c], st.blocked⟩
  else
    ⟨if 3 ≤ st.cur.length ∧ st.blocked = false ∧ isWordChar c = false
        then st.acc ++ [String.mk st.cur] else st.acc,
     [], isWordChar c⟩

/-- `re.findall(r'\b[a-z]{3,}\b', s)`: the maximal runs of `[a-z]` of length
at least 3 whose neighboring characters (if any) are not word characters. -/
def tokenize (s : String) : List String :=
  let st := s.toList.foldl tokStep ⟨[], [], false⟩
  if 3 ≤ st.cur.length ∧ st.blocked = false then st.acc ++ [String.mk st.cur]
  else st.acc

/-- Python `str.lower()`: lowercase each character (ASCII suffices for this
corpus). -/
def pyLower (s : String) : String := String.mk (s.toList.map Char.toLower)

/-- `' '.join(texts)`. -/
def joinSpace (texts : List String) : String := String.intercalate " " texts

/-- The fixed stop-word set of `analyze_community_text`. -/
def stopWords : List String :=
  ["the", "and", "for", "are", "but", "not", "you", "all", "can",
   "was", "this", "that", "with", "have", "from", "they", "will",
   "been", "has", "had", "were", "said", "their", "what", "than",
   "when", "where", "who", "which", "these", "those", "then", "into"]

/-- First occurrences, in order (Python dict/Counter key order). -/
def dedupFirst (xs : List String) : List String :=
  xs.foldl (fun acc x => if x ∈ acc then acc else acc ++ [x]) []

/-- `collections.Counter(ws).items()`: keys in first-insertion order, each
with its multiplicity in `ws`. -/
def counterItems (ws : List String) : List (String × ℕ) :=
  (dedupFirst ws).map (fun w => (w, ws.count w))

/-- The filtered token stream of `analyze_community_text`: tokenize the
lowercased concatenation, then drop stop words. -/
def filteredWords (texts : List String) : List String :=
  (tokenize (pyLower (joinSpace texts))).filter (fun w => decide (w ∉ stopWords))

/-- `CommunityDetector.analyze_community_text`, taking as input the list of
section texts returned by the (external) graph query for the community.
`Counter.most_common(n)` sorts items by count descending and is stable, so
ties keep first-seen order. -/
def analyzeCommunityText (texts : List String) (topTerms : ℕ) : List String :=
  if texts.isEmpty then []
  else
    ((stableSortDesc Prod.snd (counterItems (filteredWords texts))).take
      topTerms).map Prod.fst

/-! ### Context retrieval orchestrator (backend/llm/answer.py) -/

/-- Model of CPython's `list(set(xs))` for strings.  A set iterates in slot
order of its hash table, which is determined by the per-process randomized
string hash `h` (PYTHONHASHSEED); it is not insertion order.  Modelled as
the distinct elements sorted by their slot index `h x % 8` (8 is CPython's
initial table size; the sort is stable, faithful whenever slots do not
collide).  Distinctness and membership are exactly CPython's; only the
iteration order of same-slot elements is approximated. -/
def pySetList (h : String → ℕ) (xs : List String) : List String :=
  (dedupFirst xs).insertionSort (fun a b => h a % 8 ≤ h b % 8)

/-- The generator `s['metadata']['ticket_id'] for s in sections
if 'ticket_id' in s['metadata']`. -/
def sectionTicketIds (secs : List SearchHit) : List String :=
  secs.filterMap (fun s => s.metadata.lookup "ticket_id")

/-- Step 2 of `retrieve_graph_context`:
`ticket_ids = list(set(...))` over the matched sections' metadata. -/
def extractTicketIds (h : String → ℕ) (secs : List SearchHit) : List String :=
  pySetList h (sectionTicketIds secs)

def storeUnavailableMsg : String := "Vector store not found. Run ingestion first."

def noEvidenceMsg : String := "No relevant sections found"

/-- The observable outcome of `retrieve_graph_context` needed here: the
matched sections, the extracted `ticket_ids` (passed to the Neo4j query),
the `ticket_ids` recorded in the provenance dict, the `error` field of an
early-return result, and whether the Neo4j block was entered at all. -/
structure RetrieveResult where
  sections : List SearchHit
  ticketIds : List String
  provenanceTicketIds : List String
  error : Option String
  graphQueried : Bool

/-- `retrieve_graph_context(query, top_k_sections, ...)` up to graph
expansion.  A fresh `VectorStore()` (default dimension 768) is loaded from
the snapshot; if `load()` returns `False` the function returns the
store-unavailable error dict before searching and before `Neo4jGraph()` is
entered; if the seed search is empty it returns the no-evidence error dict,
also before any graph query; otherwise the distinct ticket ids are
extracted and the graph is queried, and the provenance dict records the
same `ticket_ids` list. -/
noncomputable def retrieveGraphContext (h : String → ℕ) (snap : Option Snapshot)
    (qEmb : List ℝ) (topK : ℕ) : RetrieveResult :=
  let loaded := loadVS (emptyStore 768) snap
  if loaded.2 = false then ⟨[], [], [], some storeUnavailableMsg, false⟩
  else
    let sections := searchVS loaded.1 qEmb topK none
    if sections.isEmpty then ⟨[], [], [], some noEvidenceMsg, false⟩
    else
      let tids := extractTicketIds h sections
      ⟨sections, tids, tids, none, true⟩

/-! ### Basic numeric lemmas -/

theorem sumSq_nil : sumSq [] = 0 := rfl

theorem sumSq_cons (x : ℝ) (xs : List ℝ) : sumSq (x :: xs) = x * x + sumSq xs := by
  simp [sumSq, dot]

theorem sumSq_nonneg (xs : List ℝ) : 0 ≤ sumSq xs := by
  induction xs with
  | nil => simp [sumSq_nil]
  | cons x xs ih =>
    rw [sumSq_cons]
    have := mul_self_nonneg x
    linarith

theorem l2norm_eq_of_sumSq {v : List ℝ} {c : ℝ} (hc : 0 ≤ c)
    (h : sumSq v = c * c) : l2norm v = c := by
  rw [l2norm, h, Real.sqrt_mul_self hc]

theorem l2norm_e1 : l2norm [(1 : ℝ), 0] = 1 :=
  l2norm_eq_of_sumSq (by norm_num) (by rw [sumSq_cons, sumSq_cons, sumSq_nil]; ring)

theorem l2norm_e2 : l2norm [(0 : ℝ), 1] = 1 :=
  l2norm_eq_of_sumSq (by norm_num) (by rw [sumSq_cons, sumSq_cons, sumSq_nil]; ring)

theorem npCloseToOne_one : npCloseToOne 1 := by
  unfold npCloseToOne npAtol npRtol
  norm_num

/-! ### The metadata-length bug in `VectorStore.add`

`add` validates `len(metadatas) == len(texts)` only after
`self.index.add(...)`, `self.texts.extend(...)` and `self.vectors.extend(...)`
have run, so this validation failure leaves the new vectors and texts behind
with no matching metadata.  The evaluation below runs `add` on an empty
2-dimensional store with two valid unit rows and a one-element metadatas
list. -/

theorem addVS_meta_mismatch_eval :
    addVS (emptyStore 2) ["a", "b"] ⟨[[1, 0], [0, 1]], 2⟩ (some [[]]) =
      (⟨2, [[1, 0], [0, 1]], ["a", "b"], [[1, 0], [0, 1]], []⟩,
       some "Number of metadatas doesn't match number of texts") := by
  have hall : ∀ r ∈ [[(1 : ℝ), 0], [0, 1]], npCloseToOne (l2norm r) := by
    intro r hr
    rcases List.mem_cons.mp hr with h | h
    · rw [h, l2norm_e1]; exact npCloseToOne_one
    · rcases List.mem_singleton.mp h with h
      rw [h, l2norm_e2]; exact npCloseToOne_one
  simp [addVS, emptyStore, hall]

/-- C2: `VectorStore.add` is claimed to raise validation errors before any
state is mutated.  The code checks the metadatas length only after the
index, texts and vectors have been extended: on a valid two-row batch with a
one-element metadatas list, the call raises but the store already holds both
new vectors and texts. -/
theorem add_meta_mismatch_mutates_before_raise :
    ((addVS (emptyStore 2) ["a", "b"] ⟨[[1, 0], [0, 1]], 2⟩ (some [[]])).2).isSome = true ∧
    (addVS (emptyStore 2) ["a", "b"] ⟨[[1, 0], [0, 1]], 2⟩ (some [[]])).1.texts = ["a", "b"] ∧
    (addVS (emptyStore 2) ["a", "b"] ⟨[[1, 0], [0, 1]], 2⟩ (some [[]])).1.indexVectors.length = 2 ∧
    (addVS (emptyStore 2) ["a", "b"] ⟨[[1, 0], [0, 1]], 2⟩ (some [[]])).1 ≠ emptyStore 2 := by
  rw [addVS_meta_mismatch_eval]
  refine ⟨rfl, rfl, rfl, fun h => ?_⟩
  have := congrArg Store.texts h
  simp [emptyStore] at this

/-- C3: the length of the index is claimed to equal the number of stored
metadata entries at all times.  After the failed `add` above, the index
holds 2 vectors but the metadata list is still empty. -/
theorem add_meta_mismatch_breaks_parallel_invariant :
    (addVS (emptyStore 2) ["a", "b"] ⟨[[1, 0], [0, 1]], 2⟩ (some [[]])).1.indexVectors.length = 2 ∧
    (addVS (emptyStore 2) ["a", "b"] ⟨[[1, 0], [0, 1]], 2⟩ (some [[]])).1.metadatas.length = 0 ∧
    (addVS (emptyStore 2) ["a", "b"] ⟨[[1, 0], [0, 1]], 2⟩ (some [[]])).1.indexVectors.length ≠
      (addVS (emptyStore 2) ["a", "b"] ⟨[[1, 0], [0, 1]], 2⟩ (some [[]])).1.metadatas.length := by
  rw [addVS_meta_mismatch_eval]
  exact ⟨rfl, rfl, by decide⟩

/-- C10: `add` with an empty texts list returns before any validation, so
the call is a complete no-op even when the embedding matrix has the wrong
width (second conjunct: a 3-wide matrix against a 2-dimensional store). -/
theorem add_empty_texts_noop :
    (∀ (s : Store) (emb : Mat) (ms : Option (List Metadata)),
        addVS s [] emb ms = (s, none)) ∧
    addVS (emptyStore 2) [] ⟨[[1, 2, 3]], 3⟩ none = (emptyStore 2, none) := by
  constructor
  · intro s emb ms
    simp [addVS]
  · simp [addVS]

/-- C8: `persist()` then `load()` into a fresh store restores the FAISS
index, texts, vectors, metadata and dimension exactly, so any fixed
`search` call returns identical results (exact equality in the real-number
semantics, hence in particular within floating-point tolerance). -/
theorem persist_load_roundtrip_search (s fresh : Store) (q : List ℝ) (k : ℕ)
    (ms : Option ℝ) :
    (loadVS fresh (some (persistVS s))).2 = true ∧
    searchVS (loadVS fresh (some (persistVS s))).1 q k ms = searchVS s q k ms :=
  ⟨rfl, rfl⟩

/-- C7: with no snapshot on disk, `retrieve_graph_context` returns the
store-unavailable error before any search and never enters the Neo4j block;
this is a different condition from the no-evidence error produced by an
empty seed search (third conjunct, for a loaded-but-empty index). -/
theorem store_unavailable_before_graph :
    (∀ (h : String → ℕ) (q : List ℝ) (k : ℕ),
        retrieveGraphContext h none q k =
          ⟨[], [], [], some storeUnavailableMsg, false⟩) ∧
    storeUnavailableMsg ≠ noEvidenceMsg ∧
    (∀ (h : String → ℕ) (sn : Snapshot) (q : List ℝ) (k : ℕ),
        sn.faissIndex = [] →
          (retrieveGraphContext h (some sn) q k).error = some noEvidenceMsg ∧
          (retrieveGraphContext h (some sn) q k).graphQueried = false) := by
  refine ⟨?_, ?_, ?_⟩
  · intro h q k
    rfl
  · decide
  · intro h sn q k hempty
    have hload : (loadVS (emptyStore 768) (some sn)).1.indexVectors = [] := hempty
    have hempty' : searchVS (loadVS (emptyStore 768) (some sn)).1 q k none = [] := by
      unfold searchVS
      rw [hload]
      rfl
    have heval : retrieveGraphContext h (some sn) q k =
        ⟨[], [], [], some noEvidenceMsg, false⟩ := by
      unfold retrieveGraphContext
      rw [if_neg (by simp [loadVS])]
      simp only [hempty']
      rfl
    rw [heval]
    exact ⟨rfl, rfl⟩

theorem store_unavailable_witness :
    (retrieveGraphContext (fun _ => 0) (some ⟨[], [], [], [], 768⟩) [] 5).error =
        some noEvidenceMsg ∧
    (retrieveGraphContext (fun _ => 0) (some ⟨[], [], [], [], 768⟩) [] 5).graphQueried =
        false :=
  store_unavailable_before_graph.2.2 (fun _ => 0) ⟨[], [], [], [], 768⟩ [] 5 rfl

/-! ### Norms after `add` (C1) -/

theorem sumSq_map_div (r : List ℝ) (c : ℝ) :
    sumSq (r.map (· / c)) = sumSq r / (c * c) := by
  induction r with
  | nil => simp [sumSq_nil]
  | cons x xs ih =>
    simp only [List.map_cons]
    rw [sumSq_cons, sumSq_cons, ih, div_mul_div_comm, div_add_div_same]

theorem l2norm_normalizeRow (r : List ℝ) (h : sumSq r ≠ 0) :
    l2norm (normalizeRow r) = 1 := by
  rw [normalizeRow, l2norm, sumSq_map_div,
    show l2norm r * l2norm r = sumSq r from Real.mul_self_sqrt (sumSq_nonneg r),
    div_self h, Real.sqrt_one]

theorem npCloseToOne_iff (x : ℝ) : npCloseToOne x ↔ |x - 1| ≤ 2 / 100000 := by
  unfold npCloseToOne npAtol npRtol
  norm_num

/-- The property asserted by the spec for stored vectors, at tolerance
`tol` around unit norm. -/
noncomputable def claimNormBound (s : Store) (tol : ℝ) : Prop :=
  ∀ v ∈ s.indexVectors, |l2norm v - 1| ≤ tol

/-- The FAISS index after `add` is either untouched (a validation error
raised before `index.add`) or extended with exactly the rows the source
appends: the input rows if all pass `np.allclose(norms, 1, atol=1e-5)`,
their normalizations otherwise. -/
theorem addVS_indexVectors_cases (s : Store) (texts : List String) (emb : Mat)
    (ms : Option (List Metadata)) :
    (addVS s texts emb ms).1.indexVectors = s.indexVectors ∨
    (addVS s texts emb ms).1.indexVectors =
      s.indexVectors ++ (if ∀ r ∈ emb.rows, npCloseToOne (l2norm r)
        then emb.rows else emb.rows.map normalizeRow) := by
  unfold addVS
  split
  · exact Or.inl rfl
  · split
    · exact Or.inl rfl
    · split
      · exact Or.inl rfl
      · rcases ms with _ | msl
        · exact Or.inr rfl
        · simp only
          split
          · exact Or.inr rfl
          · exact Or.inr rfl

/-- C1 (amended): after any `add` call whose input rows all have nonzero
norm, starting from a store whose vectors already satisfy it, every stored
vector has L2 norm within `2e-5` of 1 — the effective
`np.allclose(..., atol=1e-5)` tolerance, since numpy's default `rtol=1e-5`
is not overridden.  Rows failing that check are normalized to exactly unit
norm. -/
theorem add_keeps_norms_within_allclose_tol (s : Store) (texts : List String)
    (emb : Mat) (ms : Option (List Metadata))
    (hpre : claimNormBound s (2 / 100000))
    (hne : texts ≠ [])
    (hrc : emb.rows.length = texts.length)
    (hw : emb.width = s.dimension)
    (hnz : ∀ r ∈ emb.rows, sumSq r ≠ 0) :
    claimNormBound (addVS s texts emb ms).1 (2 / 100000) := by
  have hrows : ∀ v ∈ (if ∀ r ∈ emb.rows, npCloseToOne (l2norm r)
      then emb.rows else emb.rows.map normalizeRow), |l2norm v - 1| ≤ 2 / 100000 := by
    by_cases hall : ∀ r ∈ emb.rows, npCloseToOne (l2norm r)
    · rw [if_pos hall]
      intro v hv
      exact (npCloseToOne_iff _).mp (hall v hv)
    · rw [if_neg hall]
      intro v hv
      obtain ⟨r, hr, rfl⟩ := List.mem_map.mp hv
      rw [l2norm_normalizeRow r (hnz r hr)]
      norm_num
  rcases addVS_indexVectors_cases s texts emb ms with hcase | hcase
  · intro v hv
    rw [hcase] at hv
    exact hpre v hv
  · intro v hv
    rw [hcase] at hv
    rcases List.mem_append.mp hv with h | h
    · exact hpre v h
    · exact hrows v h

theorem add_keeps_norms_witness :
    (["a"] ≠ ([] : List String)) ∧
    (∀ r ∈ ([[2, 0]] : List (List ℝ)), sumSq r ≠ 0) ∧
    claimNormBound (addVS (emptyStore 2) ["a"] ⟨[[2, 0]], 2⟩ none).1 (2 / 100000) := by
  have hnz : ∀ r ∈ ([[2, 0]] : List (List ℝ)), sumSq r ≠ 0 := by
    intro r hr
    rw [List.mem_singleton.mp hr]
    rw [sumSq_cons, sumSq_cons, sumSq_nil]
    norm_num
  refine ⟨by decide, hnz, ?_⟩
  exact add_keeps_norms_within_allclose_tol (emptyStore 2) ["a"] ⟨[[2, 0]], 2⟩ none
    (fun v hv => absurd hv (by simp [emptyStore])) (by decide) rfl rfl hnz

/-- A row whose norm is `1.000015`: within the effective `np.allclose`
tolerance `2e-5`, but more than `1e-5` away from 1. -/
noncomputable def cBad : ℝ := 1000015 / 1000000

theorem l2norm_cBad : l2norm [cBad] = cBad :=
  l2norm_eq_of_sumSq (by rw [cBad]; norm_num) (by rw [sumSq_cons, sumSq_nil]; ring)

/-- C1 (counterexample to the claim as stated): adding the single valid row
`[1.000015]` to an empty 1-dimensional store succeeds and stores the row
unchanged — `np.allclose` accepts it since `|norm-1| = 1.5e-5 ≤ 2e-5` —
yet its stored norm is not within `1e-5` of 1. -/
theorem add_norm_1e5_counterexample :
    (addVS (emptyStore 1) ["a"] ⟨[[cBad]], 1⟩ none).2 = none ∧
    (addVS (emptyStore 1) ["a"] ⟨[[cBad]], 1⟩ none).1.indexVectors = [[cBad]] ∧
    ¬ claimNormBound (addVS (emptyStore 1) ["a"] ⟨[[cBad]], 1⟩ none).1 (1 / 100000) := by
  have hclose : npCloseToOne (l2norm [cBad]) := by
    rw [l2norm_cBad, npCloseToOne_iff, cBad]
    rw [abs_of_nonneg (by norm_num)]
    norm_num
  have hall : ∀ r ∈ [[cBad]], npCloseToOne (l2norm r) := by
    intro r hr
    rw [List.mem_singleton.mp hr]
    exact hclose
  have heval : addVS (emptyStore 1) ["a"] ⟨[[cBad]], 1⟩ none =
      (⟨1, [[cBad]], ["a"], [[cBad]], [[("text", "a")]]⟩, none) := by
    simp [addVS, emptyStore, hall, ensureText]
  rw [heval]
  refine ⟨rfl, rfl, fun hcb => ?_⟩
  have hv := hcb [cBad] (by simp)
  rw [l2norm_cBad, cBad, abs_of_nonneg (by norm_num)] at hv
  norm_num at hv

/-! ### Search result shape (C4) -/

theorem searchVS_eq (s : Store) (q : List ℝ) (k : ℕ) (ms : Option ℝ)
    (h0 : ¬ s.indexVectors.length = 0) :
    searchVS s q k ms =
      (((stableSortDesc Prod.snd (s.indexVectors.enum.map
          (fun p => (p.1, dot (if npCloseToOne (l2norm q) then q else normalizeRow q) p.2)))).take
            (min k s.indexVectors.length)).filter (keepHit ms)).map (mkHit s) := by
  unfold searchVS
  rw [if_neg h0]

/-- C4: `search` returns at most `min(k, index_size)` results, sorted by
non-increasing score; every result passes `min_score` when one is given;
and search on an empty index returns the empty list. -/
theorem search_results_clamped_sorted (s : Store) (q : List ℝ) (k : ℕ)
    (ms : Option ℝ) :
    (searchVS s q k ms).length ≤ min k s.indexVectors.length ∧
    (searchVS s q k ms).Pairwise (fun a b => b.score ≤ a.score) ∧
    (∀ m, ms = some m → ∀ r ∈ searchVS s q k ms, m ≤ r.score) ∧
    (s.indexVectors.length = 0 → searchVS s q k ms = []) := by
  by_cases h0 : s.indexVectors.length = 0
  · have he : searchVS s q k ms = [] := by
      unfold searchVS
      rw [if_pos h0]
    rw [he]
    refine ⟨by simp, by simp, ?_, fun _ => rfl⟩
    intro m _ r hr
    exact absurd hr (List.not_mem_nil r)
  · rw [searchVS_eq s q k ms h0]
    refine ⟨?_, ?_, ?_, fun h => absurd h h0⟩
    · rw [List.length_map]
      exact le_trans (List.length_filter_le _ _)
        (by rw [List.length_take]; exact min_le_left _ _)
    · have hp1 := stableSortDesc_take_pairwise (Prod.snd (α := ℕ) (β := ℝ))
        (s.indexVectors.enum.map
          (fun p => (p.1, dot (if npCloseToOne (l2norm q) then q else normalizeRow q) p.2)))
        (min k s.indexVectors.length)
      have hp2 := hp1.filter (keepHit ms)
      exact List.pairwise_map.mpr hp2
    · rintro m rfl r hr
      obtain ⟨p, hp, rfl⟩ := List.mem_map.mp hr
      have hkeep := (List.mem_filter.mp hp).2
      have : ¬ p.2 < m := of_decide_eq_true hkeep
      exact not_lt.mp this

/-- A concrete loaded store: two unit vectors at offsets 0 and 1. -/
noncomputable def s0 : Store :=
  ⟨2, [[1, 0], [0, 1]], ["t0", "t1"], [[1, 0], [0, 1]], [[], []]⟩

theorem dot_e1_e1 : dot [(1 : ℝ), 0] [1, 0] = 1 := by
  simp [dot]

theorem dot_e1_e2 : dot [(1 : ℝ), 0] [0, 1] = 0 := by
  simp [dot]

theorem searchVS_s0_eval : searchVS s0 [1, 0] 5 (some (1 / 2)) = [⟨"t0", [], 1, 0⟩] := by
  have hq : npCloseToOne (l2norm [(1 : ℝ), 0]) := by
    rw [l2norm_e1]; exact npCloseToOne_one
  have hk1 : decide (¬ (1 : ℝ) < 1 / 2) = true := decide_eq_true (by norm_num)
  have hk2 : decide (¬ (0 : ℝ) < 1 / 2) = false :=
    decide_eq_false (not_not_intro (by norm_num))
  have hr1 : ((0 : ℝ) < 1 ∨ (1 : ℝ) = 0 ∧ 0 ≤ 1) := Or.inl one_pos
  norm_num [searchVS, s0, hq, dot_e1_e1, dot_e1_e2, stableSortDesc, keyRel,
    List.enum, List.enumFrom, keepHit, hk1, hk2, mkHit]

theorem search_results_witness :
    searchVS s0 [1, 0] 5 (some (1 / 2)) = [⟨"t0", [], 1, 0⟩] ∧
    (1 : ℝ) / 2 ≤ SearchHit.score ⟨"t0", [], 1, 0⟩ := by
  refine ⟨searchVS_s0_eval, ?_⟩
  have h := (search_results_clamped_sorted s0 [1, 0] 5 (some (1 / 2))).2.2.1 (1 / 2) rfl
  exact h _ (by rw [searchVS_s0_eval]; exact List.mem_singleton_self _)

/-! ### Ticket-id extraction order (C6) -/

theorem mem_dedupFirst_aux (xs : List String) (acc : List String) (x : String) :
    x ∈ xs.foldl (fun acc y => if y ∈ acc then acc else acc ++ [y]) acc ↔
      x ∈ acc ∨ x ∈ xs := by
  induction xs generalizing acc with
  | nil => simp
  | cons y ys ih =>
    simp only [List.foldl_cons]
    by_cases hy : y ∈ acc
    · rw [if_pos hy, ih]
      constructor
      · rintro (h | h)
        · exact Or.inl h
        · exact Or.inr (List.mem_cons_of_mem _ h)
      · rintro (h | h)
        · exact Or.inl h
        · rcases List.mem_cons.mp h with rfl | h
          · exact Or.inl hy
          · exact Or.inr h
    · rw [if_neg hy, ih]
      simp [List.mem_append, or_assoc]

theorem mem_dedupFirst (xs : List String) (x : String) :
    x ∈ dedupFirst xs ↔ x ∈ xs := by
  unfold dedupFirst
  rw [mem_dedupFirst_aux]
  simp

theorem nodup_dedupFirst_aux (xs : List String) (acc : List String)
    (h : acc.Nodup) :
    (xs.foldl (fun acc y => if y ∈ acc then acc else acc ++ [y]) acc).Nodup := by
  induction xs generalizing acc with
  | nil => simpa using h
  | cons y ys ih =>
    simp only [List.foldl_cons]
    by_cases hy : y ∈ acc
    · rw [if_pos hy]
      exact ih acc h
    · rw [if_neg hy]
      refine ih _ ?_
      simp [List.nodup_append, h, hy]

theorem nodup_dedupFirst (xs : List String) : (dedupFirst xs).Nodup :=
  nodup_dedupFirst_aux xs [] List.nodup_nil

theorem pySetList_perm (h : String → ℕ) (xs : List String) :
    List.Perm (pySetList h xs) (dedupFirst xs) :=
  List.perm_insertionSort _ _

theorem mem_pySetList (h : String → ℕ) (xs : List String) (x : String) :
    x ∈ pySetList h xs ↔ x ∈ xs := by
  rw [(pySetList_perm h xs).mem_iff, mem_dedupFirst]

theorem nodup_pySetList (h : String → ℕ) (xs : List String) :
    (pySetList h xs).Nodup :=
  ((pySetList_perm h xs).nodup_iff).mpr (nodup_dedupFirst xs)

/-- A process hash assigning `T1` the smaller slot. -/
def hashT1first : String → ℕ := fun t => if t = "T1" then 0 else 1

/-- A process hash assigning `T2` the smaller slot. -/
def hashT2first : String → ℕ := fun t => if t = "T1" then 1 else 0

/-- Two seed-search results whose metadata reference tickets T1 then T2. -/
noncomputable def secsEx : List SearchHit :=
  [⟨"s1", [("ticket_id", "T1")], 1, 0⟩, ⟨"s2", [("ticket_id", "T2")], 1, 1⟩]

/-- C6 (counterexample): the extraction step is `list(set(...))`, whose
order follows the per-process randomized string hash, not first appearance.
With sections referencing T1 then T2, a process whose hash slots T2 first
extracts `["T2", "T1"]`, while another extracts `["T1", "T2"]`: the order
is neither first-appearance nor stable across runs. -/
theorem extract_order_not_first_appearance :
    sectionTicketIds secsEx = ["T1", "T2"] ∧
    extractTicketIds hashT1first secsEx = ["T1", "T2"] ∧
    extractTicketIds hashT2first secsEx = ["T2", "T1"] ∧
    extractTicketIds hashT2first secsEx ≠ sectionTicketIds secsEx := by
  have h1 : sectionTicketIds secsEx = ["T1", "T2"] := rfl
  have h2 : extractTicketIds hashT2first secsEx = ["T2", "T1"] := rfl
  refine ⟨h1, rfl, h2, ?_⟩
  rw [h1, h2]
  decide

/-- C6 (amended): the extraction step produces each distinct parent ticket
id exactly once — as a set it equals the ids appearing in the matched
sections' metadata — in an order determined by the process's string hash;
and the provenance record's `ticket_ids` is always the very same list that
the extraction step produced (they agree within any single run). -/
theorem extract_ticket_ids_set_semantics :
    (∀ (h : String → ℕ) (secs : List SearchHit),
        (extractTicketIds h secs).Nodup ∧
        (∀ x, x ∈ extractTicketIds h secs ↔ x ∈ sectionTicketIds secs)) ∧
    (∀ (h : String → ℕ) (snap : Option Snapshot) (q : List ℝ) (k : ℕ),
        (retrieveGraphContext h snap q k).provenanceTicketIds =
          (retrieveGraphContext h snap q k).ticketIds) := by
  constructor
  · intro h secs
    exact ⟨nodup_pySetList h _, fun x => mem_pySetList h _ x⟩
  · intro h snap q k
    dsimp only [retrieveGraphContext]
    split
    · rfl
    · split
      · rfl
      · rfl

theorem extract_ticket_ids_witness :
    (extractTicketIds hashT1first secsEx).Nodup ∧
    ("T1" ∈ extractTicketIds hashT1first secsEx ↔ "T1" ∈ sectionTicketIds secsEx) :=
  ⟨(extract_ticket_ids_set_semantics.1 hashT1first secsEx).1,
   (extract_ticket_ids_set_semantics.1 hashT1first secsEx).2 "T1"⟩

/-! ### Community term signatures (C9) -/

theorem tokStep_inv (st : TokState) (c : Char)
    (hacc : ∀ w ∈ st.acc, 3 ≤ w.length ∧ w.toList.all isLowerAZ = true)
    (hcur : st.cur.all isLowerAZ = true) :
    (∀ w ∈ (tokStep st c).acc, 3 ≤ w.length ∧ w.toList.all isLowerAZ = true) ∧
      (tokStep st c).cur.all isLowerAZ = true := by
  unfold tokStep
  split
  · rename_i hc
    refine ⟨hacc, ?_⟩
    simp [List.all_append, hcur, hc]
  · refine ⟨?_, rfl⟩
    intro w hw
    dsimp at hw
    split at hw
    · rename_i hcond
      rcases List.mem_append.mp hw with h | h
      · exact hacc w h
      · rw [List.mem_singleton.mp h]
        exact ⟨hcond.1, hcur⟩
    · exact hacc w hw

theorem tokenize_valid (s : String) :
    ∀ w ∈ tokenize s, 3 ≤ w.length ∧ w.toList.all isLowerAZ = true := by
  have main : ∀ (cs : List Char) (st : TokState),
      (∀ w ∈ st.acc, 3 ≤ w.length ∧ w.toList.all isLowerAZ = true) →
      st.cur.all isLowerAZ = true →
      (∀ w ∈ (cs.foldl tokStep st).acc, 3 ≤ w.length ∧ w.toList.all isLowerAZ = true) ∧
        (cs.foldl tokStep st).cur.all isLowerAZ = true := by
    intro cs
    induction cs with
    | nil => intro st h1 h2; exact ⟨h1, h2⟩
    | cons c cs ih =>
      intro st h1 h2
      rw [List.foldl_cons]
      exact ih _ (tokStep_inv st c h1 h2).1 (tokStep_inv st c h1 h2).2
  intro w hw
  unfold tokenize at hw
  dsimp only at hw
  obtain ⟨H1, H2⟩ := main s.toList ⟨[], [], false⟩ (by simp) rfl
  split at hw
  · rename_i hcond
    rcases List.mem_append.mp hw with h | h
    · exact H1 w h
    · rw [List.mem_singleton.mp h]
      exact ⟨hcond.1, H2⟩
  · exact H1 w hw

theorem mem_counterItems (ws : List String) (p : String × ℕ)
    (hp : p ∈ counterItems ws) : p.1 ∈ ws ∧ p.2 = ws.count p.1 := by
  unfold counterItems at hp
  obtain ⟨w, hw, rfl⟩ := List.mem_map.mp hp
  exact ⟨(mem_dedupFirst ws w).mp hw, rfl⟩

theorem counterItems_complete (ws : List String) (w : String) (hw : w ∈ ws) :
    (w, ws.count w) ∈ counterItems ws :=
  List.mem_map.mpr ⟨w, (mem_dedupFirst ws w).mpr hw, rfl⟩

/-- The three member texts of the spec's concrete community example. -/
def exTexts : List String :=
  ["login failure timeout", "login failure retry", "unrelated crash"]

/-- C9: `analyze_community_text` returns at most `n` terms; each is a
lowercase alphabetic token of length ≥ 3 that is not a stop word and occurs
in the filtered token stream; terms are ordered by non-increasing
frequency; any filtered token left out occurs no more often than every
returned term; and on the spec's concrete example the top-3 signature is
`["login", "failure", "timeout"]`, ranking "login" and "failure" (count 2)
above the once-occurring terms. -/
theorem analyze_community_text_top_terms :
    (∀ (texts : List String) (n : ℕ),
        (analyzeCommunityText texts n).length ≤ n ∧
        (∀ w ∈ analyzeCommunityText texts n,
            3 ≤ w.length ∧ w.toList.all isLowerAZ = true ∧ w ∉ stopWords ∧
              w ∈ filteredWords texts) ∧
        (analyzeCommunityText texts n).Pairwise
          (fun a b => (filteredWords texts).count b ≤ (filteredWords texts).count a) ∧
        (∀ w, w ∈ filteredWords texts → w ∉ analyzeCommunityText texts n →
            ∀ v ∈ analyzeCommunityText texts n,
              (filteredWords texts).count w ≤ (filteredWords texts).count v)) ∧
    analyzeCommunityText exTexts 3 = ["login", "failure", "timeout"] ∧
    (filteredWords exTexts).count "login" = 2 ∧
    (filteredWords exTexts).count "failure" = 2 ∧
    (filteredWords exTexts).count "timeout" = 1 ∧
    (filteredWords exTexts).count "retry" = 1 ∧
    (filteredWords exTexts).count "unrelated" = 1 ∧
    (filteredWords exTexts).count "crash" = 1 := by
  constructor
  · intro texts n
    by_cases ht : texts.isEmpty
    · have he : analyzeCommunityText texts n = [] := by
        unfold analyzeCommunityText
        rw [if_pos ht]
      rw [he]
      refine ⟨by simp, by simp, by simp, ?_⟩
      intro w _ _ v hv
      exact absurd hv (List.not_mem_nil v)
    · have he : analyzeCommunityText texts n =
          ((stableSortDesc Prod.snd (counterItems (filteredWords texts))).take n).map
            Prod.fst := by
        unfold analyzeCommunityText
        rw [if_neg ht]
      have htake : ∀ p ∈ (stableSortDesc Prod.snd
          (counterItems (filteredWords texts))).take n,
          p ∈ counterItems (filteredWords texts) := by
        intro p hp
        exact (stableSortDesc_mem _ _ p).mp (List.take_subset n _ hp)
      rw [he]
      refine ⟨?_, ?_, ?_, ?_⟩
      · rw [List.length_map, List.length_take]
        exact min_le_left _ _
      · intro w hw
        obtain ⟨p, hp, rfl⟩ := List.mem_map.mp hw
        have hmem := (mem_counterItems _ p (htake p hp)).1
        have hfw := hmem
        unfold filteredWords at hfw
        have hf := List.mem_filter.mp hfw
        have hstop : p.1 ∉ stopWords := of_decide_eq_true hf.2
        obtain ⟨hl, hall⟩ := tokenize_valid _ p.1 hf.1
        exact ⟨hl, hall, hstop, hmem⟩
      · have hpw := stableSortDesc_take_pairwise
          (Prod.snd (α := String) (β := ℕ)) (counterItems (filteredWords texts)) n
        have hpw2 : ((stableSortDesc Prod.snd
            (counterItems (filteredWords texts))).take n).Pairwise
            (fun p q => (filteredWords texts).count q.1 ≤
              (filteredWords texts).count p.1) := by
          refine hpw.imp_of_mem ?_
          intro p q hp hq hle
          rw [← (mem_counterItems _ p (htake p hp)).2,
            ← (mem_counterItems _ q (htake q hq)).2]
          exact hle
        exact List.pairwise_map.mpr hpw2
      · intro w hwfw hwout v hv
        obtain ⟨q, hq, rfl⟩ := List.mem_map.mp hv
        rcases stableSortDesc_take_top (Prod.snd (α := String) (β := ℕ))
            (counterItems (filteredWords texts)) n (w, (filteredWords texts).count w)
            (counterItems_complete _ w hwfw) with hin | hout
        · exact absurd (List.mem_map.mpr ⟨_, hin, rfl⟩) hwout
        · have := hout q hq
          rw [← (mem_counterItems _ q (htake q hq)).2]
          exact this
  · refine ⟨by decide, by decide, by decide, by decide, by decide, by decide, by decide⟩

theorem analyze_community_text_witness :
    ("retry" ∈ filteredWords exTexts) ∧
    ("retry" ∉ analyzeCommunityText exTexts 3) ∧
    ("login" ∈ analyzeCommunityText exTexts 3) ∧
    (filteredWords exTexts).count "retry" ≤ (filteredWords exTexts).count "login" := by
  refine ⟨by decide, by decide, by decide, ?_⟩
  exact (analyze_community_text_top_terms.1 exTexts 3).2.2.2 "retry" (by decide)
    (by decide) "login" (by decide)

/-! ### Similarity graph builder (C5) -/

theorem mem_qualScores (entries : List (String × List ℝ)) (t : ℝ) (i : ℕ)
    (emb : List ℝ) (q : String × ℝ) (hq : q ∈ qualScores entries t i emb) :
    t ≤ q.2 := by
  unfold qualScores at hq
  obtain ⟨p, hp, hsome⟩ := List.mem_filterMap.mp hq
  split at hsome
  · exact absurd hsome (by simp)
  · split at hsome
    · rename_i hle
      injection hsome with hsome
      rw [← hsome]
      exact hle
    · exact absurd hsome (by simp)

theorem filter_flatMap {α β : Type*} (l : List α) (f : α → List β) (p : β → Bool) :
    (l.flatMap f).filter p = l.flatMap (fun a => (f a).filter p) := by
  induction l with
  | nil => rfl
  | cons a l ih => simp [List.flatMap_cons, List.filter_append, ih]

/-- In a per-source build over distinct names, filtering the emitted edges
by one source's name recovers exactly that source's group. -/
theorem edgesFrom_flatMap (l : List (ℕ × (String × List ℝ)))
    (g : ℕ × (String × List ℝ) → List (String × ℝ))
    (hnd : (l.map (fun p => p.2.1)).Nodup)
    {ip : ℕ × (String × List ℝ)} (hip : ip ∈ l) :
    edgesFrom (l.flatMap (fun p => (g p).map (fun q => (p.2.1, q.1, q.2)))) ip.2.1 =
      (g ip).map (fun q => (ip.2.1, q.1, q.2)) := by
  induction l with
  | nil => exact absurd hip (List.not_mem_nil ip)
  | cons a l ih =>
    have hnd0 : (a.2.1 :: l.map (fun p => p.2.1)).Nodup := by
      simpa only [List.map_cons] using hnd
    have hhead : a.2.1 ∉ l.map (fun p => p.2.1) := (List.nodup_cons.mp hnd0).1
    have htail : (l.map (fun p => p.2.1)).Nodup := (List.nodup_cons.mp hnd0).2
    rw [List.flatMap_cons]
    unfold edgesFrom
    rw [List.filter_append]
    rcases List.mem_cons.mp hip with rfl | hip'
    · have h1 : (List.map (fun q => (ip.2.1, q.1, q.2)) (g ip)).filter
          (fun e => decide (e.1 = ip.2.1)) =
          List.map (fun q => (ip.2.1, q.1, q.2)) (g ip) := by
        apply List.filter_eq_self.mpr
        intro e he
        obtain ⟨q, _, rfl⟩ := List.mem_map.mp he
        simp
      have h2 : (l.flatMap (fun p => (g p).map (fun q => (p.2.1, q.1, q.2)))).filter
          (fun e => decide (e.1 = ip.2.1)) = [] := by
        apply List.filter_eq_nil_iff.mpr
        intro e he
        obtain ⟨p, hp, hep⟩ := List.mem_flatMap.mp he
        obtain ⟨q, _, rfl⟩ := List.mem_map.mp hep
        have hne : p.2.1 ≠ ip.2.1 := by
          intro hcontra
          exact hhead (hcontra ▸ List.mem_map.mpr ⟨p, hp, rfl⟩)
        simp [hne]
      rw [h1, h2, List.append_nil]
    · have h1 : (List.map (fun q => (a.2.1, q.1, q.2)) (g a)).filter
          (fun e => decide (e.1 = ip.2.1)) = [] := by
        apply List.filter_eq_nil_iff.mpr
        intro e he
        obtain ⟨q, _, rfl⟩ := List.mem_map.mp he
        have hne : a.2.1 ≠ ip.2.1 := by
          intro hcontra
          exact hhead (hcontra ▸ List.mem_map.mpr ⟨ip, hip', rfl⟩)
        simp [hne]
      rw [h1, List.nil_append]
      exact ih htail hip'

theorem connect_group (entries : List (String × List ℝ)) (t : ℝ) (k : ℕ)
    (hnd : (entries.map Prod.fst).Nodup)
    {ip : ℕ × (String × List ℝ)} (hip : ip ∈ entries.enum) :
    edgesFrom (connectSimilarTickets entries t k) ip.2.1 =
      ((stableSortDesc Prod.snd (qualScores entries t ip.1 ip.2.2)).take k).map
        (fun q => (ip.2.1, q.1, q.2)) := by
  have hnd' : (entries.enum.map (fun p => p.2.1)).Nodup := by
    have : entries.enum.map (fun p : ℕ × (String × List ℝ) => p.2.1) =
        entries.map Prod.fst := by
      rw [show (fun p : ℕ × (String × List ℝ) => p.2.1) =
        (Prod.fst ∘ Prod.snd) from rfl]
      rw [← List.map_map, List.enum_map_snd]
    rw [this]
    exact hnd
  exact edgesFrom_flatMap entries.enum _ hnd' hip

/-- The spec's concrete builder example: A=[1,0], B=[0.99,0.14], C=[0,1]. -/
noncomputable def vA : List ℝ := [1, 0]

noncomputable def vB : List ℝ := [99 / 100, 14 / 100]

noncomputable def vC : List ℝ := [0, 1]

noncomputable def exEntries : List (String × List ℝ) := [("A", vA), ("B", vB), ("C", vC)]

theorem l2norm_vA : l2norm vA = 1 := by rw [vA]; exact l2norm_e1

theorem l2norm_vC : l2norm vC = 1 := by rw [vC]; exact l2norm_e2

theorem sumSq_vB : sumSq vB = 9997 / 10000 := by
  rw [vB, sumSq_cons, sumSq_cons, sumSq_nil]
  norm_num

theorem l2norm_vB_pos : 0 < l2norm vB := by
  rw [l2norm, sumSq_vB]
  exact Real.sqrt_pos.mpr (by norm_num)

theorem l2norm_vB_le_one : l2norm vB ≤ 1 := by
  rw [l2norm, sumSq_vB]
  exact Real.sqrt_le_one.mpr (by norm_num)

theorem l2norm_vB_ge : 99 / 100 ≤ l2norm vB := by
  rw [l2norm, sumSq_vB]
  exact (Real.le_sqrt' (by norm_num)).mpr (by norm_num)

theorem dot_vA_vB : dot vA vB = 99 / 100 := by
  rw [vA, vB]
  simp [dot]

theorem dot_vB_vA : dot vB vA = 99 / 100 := by
  rw [vA, vB]
  simp [dot]

theorem dot_vA_vC : dot vA vC = 0 := by
  rw [vA, vC]
  simp [dot]

theorem dot_vC_vA : dot vC vA = 0 := by
  rw [vA, vC]
  simp [dot]

theorem dot_vB_vC : dot vB vC = 14 / 100 := by
  rw [vB, vC]
  simp [dot]

theorem dot_vC_vB : dot vC vB = 14 / 100 := by
  rw [vB, vC]
  simp [dot]

theorem cosineSim_vA_vB : cosineSim vA vB = (99 / 100) / l2norm vB := by
  rw [cosineSim, dot_vA_vB, l2norm_vA, one_mul]

theorem cosineSim_vB_vA_eq : cosineSim vB vA = cosineSim vA vB := by
  rw [cosineSim, cosineSim, dot_vA_vB, dot_vB_vA, mul_comm]

theorem half_le_cos_vA_vB : (1 : ℝ) / 2 ≤ cosineSim vA vB := by
  rw [cosineSim_vA_vB, le_div_iff₀ l2norm_vB_pos]
  nlinarith [l2norm_vB_le_one]

theorem cos_vA_vB_ge : (99 : ℝ) / 100 ≤ cosineSim vA vB := by
  rw [cosineSim_vA_vB, le_div_iff₀ l2norm_vB_pos]
  nlinarith [l2norm_vB_le_one, l2norm_vB_pos]

theorem cos_vA_vB_le_one : cosineSim vA vB ≤ 1 := by
  rw [cosineSim_vA_vB, div_le_one l2norm_vB_pos]
  exact l2norm_vB_ge

theorem not_half_le_cos_vA_vC : ¬ ((1 : ℝ) / 2 ≤ cosineSim vA vC) := by
  rw [cosineSim, dot_vA_vC, l2norm_vA, l2norm_vC]
  norm_num

theorem not_half_le_cos_vC_vA : ¬ ((1 : ℝ) / 2 ≤ cosineSim vC vA) := by
  rw [cosineSim, dot_vC_vA, l2norm_vA, l2norm_vC]
  norm_num

theorem not_half_le_cos_vB_vC : ¬ ((1 : ℝ) / 2 ≤ cosineSim vB vC) := by
  rw [cosineSim, dot_vB_vC, l2norm_vC, mul_one]
  refine not_le.mpr ?_
  rw [div_lt_iff₀ l2norm_vB_pos]
  nlinarith [l2norm_vB_ge]

theorem not_half_le_cos_vC_vB : ¬ ((1 : ℝ) / 2 ≤ cosineSim vC vB) := by
  rw [cosineSim, dot_vC_vB, l2norm_vC, one_mul]
  refine not_le.mpr ?_
  rw [div_lt_iff₀ l2norm_vB_pos]
  nlinarith [l2norm_vB_ge]

theorem stableSortDesc_singleton {α β : Type*} [LinearOrder β] (key : α → β)
    (x : α) : stableSortDesc key [x] = [x] := rfl

theorem qualScores_ex_A :
    qualScores exEntries (1 / 2) 0 vA = [("B", cosineSim vA vB)] := by
  have h1 : (2 : ℝ)⁻¹ ≤ cosineSim vA vB := by
    rw [← one_div]; exact half_le_cos_vA_vB
  have h2 : ¬ ((2 : ℝ)⁻¹ ≤ cosineSim vA vC) := by
    rw [← one_div]; exact not_half_le_cos_vA_vC
  unfold qualScores exEntries
  simp [List.enum, List.enumFrom, h1, h2]

theorem qualScores_ex_B :
    qualScores exEntries (1 / 2) 1 vB = [("A", cosineSim vB vA)] := by
  have h : (2 : ℝ)⁻¹ ≤ cosineSim vB vA := by
    rw [← one_div, cosineSim_vB_vA_eq]
    exact half_le_cos_vA_vB
  have h2 : ¬ ((2 : ℝ)⁻¹ ≤ cosineSim vB vC) := by
    rw [← one_div]; exact not_half_le_cos_vB_vC
  unfold qualScores exEntries
  simp [List.enum, List.enumFrom, h, h2]

theorem qualScores_ex_C :
    qualScores exEntries (1 / 2) 2 vC = [] := by
  have h1 : ¬ ((2 : ℝ)⁻¹ ≤ cosineSim vC vA) := by
    rw [← one_div]; exact not_half_le_cos_vC_vA
  have h2 : ¬ ((2 : ℝ)⁻¹ ≤ cosineSim vC vB) := by
    rw [← one_div]; exact not_half_le_cos_vC_vB
  unfold qualScores exEntries
  simp [List.enum, List.enumFrom, h1, h2]

theorem connect_ex_eval :
    connectSimilarTickets exEntries (1 / 2) 1 =
      [("A", "B", cosineSim vA vB), ("B", "A", cosineSim vB vA)] := by
  unfold connectSimilarTickets
  rw [show exEntries.enum = [(0, ("A", vA)), (1, ("B", vB)), (2, ("C", vC))] from rfl]
  rw [List.flatMap_cons, List.flatMap_cons, List.flatMap_cons, List.flatMap_nil]
  dsimp only
  rw [qualScores_ex_A, qualScores_ex_B, qualScores_ex_C]
  rw [stableSortDesc_singleton, stableSortDesc_singleton]
  rfl

/-- C5: every emitted edge scores at least the threshold; per source (for
distinct ids, as dict keys are) at most `top_k` edges are emitted, sorted
by score descending, and they dominate every qualifying neighbor that was
left out; on the spec's concrete example (threshold 0.5, top_k 1) the edge
set is exactly A→B and B→A with equal scores in [0.99, 1], and no edge
touches C. -/
theorem connect_similar_threshold_topk :
    (∀ (entries : List (String × List ℝ)) (t : ℝ) (k : ℕ) (e : String × String × ℝ),
        e ∈ connectSimilarTickets entries t k → t ≤ e.2.2) ∧
    (∀ (entries : List (String × List ℝ)) (t : ℝ) (k : ℕ),
        (entries.map Prod.fst).Nodup →
        ∀ ip ∈ entries.enum,
          (edgesFrom (connectSimilarTickets entries t k) ip.2.1).length ≤ k ∧
          (edgesFrom (connectSimilarTickets entries t k) ip.2.1).Pairwise
            (fun a b => b.2.2 ≤ a.2.2) ∧
          (∀ q ∈ qualScores entries t ip.1 ip.2.2,
              (ip.2.1, q.1, q.2) ∈ connectSimilarTickets entries t k ∨
              ∀ e ∈ edgesFrom (connectSimilarTickets entries t k) ip.2.1,
                q.2 ≤ e.2.2)) ∧
    connectSimilarTickets exEntries (1 / 2) 1 =
      [("A", "B", cosineSim vA vB), ("B", "A", cosineSim vB vA)] ∧
    (99 / 100 ≤ cosineSim vA vB ∧ cosineSim vA vB ≤ 1 ∧
      cosineSim vB vA = cosineSim vA vB) ∧
    (∀ e ∈ connectSimilarTickets exEntries (1 / 2) 1, e.1 ≠ "C" ∧ e.2.1 ≠ "C") := by
  refine ⟨?_, ?_, connect_ex_eval, ⟨cos_vA_vB_ge, cos_vA_vB_le_one, cosineSim_vB_vA_eq⟩, ?_⟩
  · intro entries t k e he
    obtain ⟨p, _, hep⟩ := List.mem_flatMap.mp he
    obtain ⟨q, hq, rfl⟩ := List.mem_map.mp hep
    have hq' : q ∈ stableSortDesc Prod.snd (qualScores entries t p.1 p.2.2) :=
      List.take_subset k _ hq
    exact mem_qualScores entries t p.1 p.2.2 q ((stableSortDesc_mem _ _ q).mp hq')
  · intro entries t k hnd ip hip
    rw [connect_group entries t k hnd hip]
    refine ⟨?_, ?_, ?_⟩
    · rw [List.length_map, List.length_take]
      exact min_le_left _ _
    · have hpw := stableSortDesc_take_pairwise (Prod.snd (α := String) (β := ℝ))
        (qualScores entries t ip.1 ip.2.2) k
      exact List.pairwise_map.mpr hpw
    · intro q hq
      rcases stableSortDesc_take_top (Prod.snd (α := String) (β := ℝ))
          (qualScores entries t ip.1 ip.2.2) k q hq with hin | hout
      · left
        refine List.mem_flatMap.mpr ⟨ip, hip, ?_⟩
        exact List.mem_map.mpr ⟨q, hin, rfl⟩
      · right
        intro e he
        obtain ⟨y, hy, rfl⟩ := List.mem_map.mp he
        exact hout y hy
  · rw [connect_ex_eval]
    intro e he
    rcases List.mem_cons.mp he with rfl | he
    · exact ⟨by decide, by decide⟩
    · rcases List.mem_singleton.mp he with rfl
      exact ⟨by decide, by decide⟩

theorem connect_similar_witness :
    ((1 : ℝ) / 2 ≤ cosineSim vA vB) ∧
    (edgesFrom (connectSimilarTickets exEntries (1 / 2) 1) "A").length ≤ 1 := by
  constructor
  · exact connect_similar_threshold_topk.1 exEntries (1 / 2) 1
      ("A", "B", cosineSim vA vB)
      (by rw [connect_ex_eval]; exact List.mem_cons_self _ _)
  · have hnd : (exEntries.map Prod.fst).Nodup := by
      rw [show exEntries.map Prod.fst = ["A", "B", "C"] from rfl]
      decide
    have hmem : (0, ("A", vA)) ∈ exEntries.enum := by
      rw [show exEntries.enum = [(0, ("A", vA)), (1, ("B", vB)), (2, ("C", vC))] from rfl]
      exact List.mem_cons_self _ _
    exact (connect_similar_threshold_topk.2.1 exEntries (1 / 2) 1 hnd
      (0, ("A", vA)) hmem).1

end TicketGraph
